import Mathlib

/-!
Verification development for the nfl-draft-analytics pipeline.

The Python sources (src/cleaner.py, src/merger.py, src/analyzer.py) are
shallowly embedded below:

* strings are `List Char` / `String` over the ASCII character classes that
  Python's regexes `\w` and `\s` use on this data (the repository's player
  names are ASCII);
* pandas DataFrames become lists of records; `groupby` (which sorts group
  keys) becomes "sorted distinct keys, then aggregate each fiber";
* float arithmetic on hit rates becomes exact arithmetic in `ℚ`
  (`mkRat a t` is exactly `(a : ℚ) / (t : ℚ)`, see `rdiv_eq_div`);
* `NaN` markers (masked cells, undefined ratios) become `Option ℚ` with
  `none` as the sentinel, and pandas' "NaN sorts last" behaviour is built
  into the comparator used for the value table.
-/

namespace NFLDraft

/-! ### Character classes (ASCII model of Python's `\w`, `\s`) -/

def isWordChar (c : Char) : Bool := c.isAlphanum || c = '_'

def isSpaceChar (c : Char) : Bool :=
  c = ' ' || c = '\t' || c = '\n' || c = '\r' || c = '\x0b' || c = '\x0c'

/-- Characters that survive `_PUNCT_RE.sub("", ·)` (the regex deletes
everything that is neither a word character nor whitespace). -/
def keepChar (c : Char) : Bool := isWordChar c || isSpaceChar c

/-! ### cleaner.normalize_name

`_SUFFIX_RE = \b(jr|sr|ii|iii|iv|hof)\b` (case-insensitive).  Because the
match must have word boundaries on both sides, a maximal run of word
characters is deleted iff the whole run is one of the suffix tokens; the
input is already lowercased when the regex runs, so lowercase tokens
suffice. -/

def suffixTokens : List (List Char) :=
  [['j', 'r'], ['s', 'r'], ['i', 'i'], ['i', 'i', 'i'], ['i', 'v'],
   ['h', 'o', 'f']]

def flushRun (acc : List Char) : List Char :=
  if acc ∈ suffixTokens then [] else acc

/-- `_SUFFIX_RE.sub("", ·)`: scan the string keeping the current maximal
word-character run in `acc`; when the run ends, drop it iff it is a suffix
token. -/
def rmSuffAux (acc : List Char) : List Char → List Char
  | [] => flushRun acc
  | c :: cs =>
    if isWordChar c then rmSuffAux (acc ++ [c]) cs
    else flushRun acc ++ c :: rmSuffAux [] cs

def removeSuffixes (l : List Char) : List Char := rmSuffAux [] l

/-- `_PUNCT_RE.sub("", ·)`. -/
def stripPunct (l : List Char) : List Char := l.filter keepChar

/-- `_WHITESPACE_RE.sub(" ", ·)`: each maximal whitespace run becomes a
single `' '`.  The flag records whether the previous character was
whitespace. -/
def collapseAux (prevSp : Bool) : List Char → List Char
  | [] => []
  | c :: cs =>
    if isSpaceChar c then
      if prevSp then collapseAux true cs else ' ' :: collapseAux true cs
    else c :: collapseAux false cs

def collapseWs (l : List Char) : List Char := collapseAux false l

/-- Python's `str.strip()`: drop whitespace from both ends. -/
def stripWs (l : List Char) : List Char :=
  ((l.dropWhile isSpaceChar).reverse.dropWhile isSpaceChar).reverse

/-- `cleaner.normalize_name`, stage for stage:
`name.lower().strip()`, then suffix removal, then punctuation removal,
then whitespace collapse and a final `strip()`. -/
def normalizeList (s : List Char) : List Char :=
  stripWs (collapseWs (stripPunct (removeSuffixes (stripWs (s.map Char.toLower)))))

def normalize_name (s : String) : String := ⟨normalizeList s.data⟩

/-! ### Data model -/

/-- A cleaned draft row (cleaner.clean_draft_data output schema).
`is_allpro` is the label written by `merger.merge_datasets`. -/
structure DraftRecord where
  year : Int
  round : Int
  pick : Int
  team : String
  player_name : String
  college : String
  pos : String
  player_name_norm : String
  is_allpro : Nat
  deriving DecidableEq

/-- A cleaned All-Pro row (cleaner.clean_allpro_data output schema). -/
structure AllProRecord where
  year : Option Int
  player_name : String
  pos : String
  team : String
  player_name_norm : String
  deriving DecidableEq

/-! ### merger.py -/

/-- `merger.merge_datasets`: flag a draft record 1 iff its normalized name
appears anywhere in the All-Pro data, for any year.  (The pandas code
additionally drops nulls from the name column before building the set;
cleaned All-Pro records always carry the derived `player_name_norm`, so
that step is a no-op in this model.) -/
def merge_datasets (draft : List DraftRecord) (allpro : List AllProRecord) :
    List DraftRecord :=
  let allpro_names := allpro.map (·.player_name_norm)
  draft.map fun r =>
    { r with is_allpro := if r.player_name_norm ∈ allpro_names then 1 else 0 }

/-- `merger.filter_analysis_cohort`: keep only draft classes 2010–2021
(the bounds are hard-coded in the source). -/
def filter_analysis_cohort (df : List DraftRecord) : List DraftRecord :=
  df.filter fun r => decide (2010 ≤ r.year) && decide (r.year ≤ 2021)

/-! ### Sorting and grouping primitives

pandas `groupby(sort=True)` emits one row per distinct key, keys in
ascending order; `sort_values` re-sorts rows by a column.  Both are
modelled with an insertion sort (`sortByLe`), which is a total sort for
the total-preorder comparators used below; none of the verified claims
constrains the relative order of tied rows. -/

def insertLe {α : Type} (le : α → α → Bool) (a : α) : List α → List α
  | [] => [a]
  | b :: bs => if le a b then a :: b :: bs else b :: insertLe le a bs

def sortByLe {α : Type} (le : α → α → Bool) : List α → List α
  | [] => []
  | a :: as => insertLe le a (sortByLe le as)

/-- Distinct members of a list (used for `groupby` keys; the final order
is irrelevant because the keys are sorted afterwards). -/
def dedupKeys {κ : Type} [DecidableEq κ] : List κ → List κ
  | [] => []
  | k :: ks => let r := dedupKeys ks; if k ∈ r then r else k :: r

/-- Sum of the `is_allpro` column (`groupby(...)["is_allpro"].agg(sum)`). -/
def sumAllpro (g : List DraftRecord) : Nat := (g.map (·.is_allpro)).sum

/-- `df.groupby(key)["is_allpro"].agg(allpro_count="sum", total_players="count")`:
one `(key, allpro_count, total_players)` triple per distinct key, keys in
ascending `leK` order. -/
def grouped {κ : Type} [DecidableEq κ] (keyOf : DraftRecord → κ)
    (leK : κ → κ → Bool) (rows : List DraftRecord) : List (κ × Nat × Nat) :=
  (sortByLe leK (dedupKeys (rows.map keyOf))).map fun k =>
    let g := rows.filter fun r => decide (keyOf r = k)
    (k, sumAllpro g, g.length)

/-- Exact value of the float division `allpro_count / total_players`.
`mkRat a t = (a : ℚ) / (t : ℚ)` (`rdiv_eq_div` below). -/
def rdiv (a t : Nat) : ℚ := mkRat a t

def intLe (a b : Int) : Bool := decide (a ≤ b)

def strLe (a b : String) : Bool := decide (a ≤ b)

/-! ### analyzer.py -/

/-- Output row of `analyzer.compute_hit_rates_by_round`. -/
structure RoundRow where
  round : Int
  allpro_count : Nat
  total_players : Nat
  hit_rate : ℚ
  deriving DecidableEq

/-- `analyzer.compute_hit_rates_by_round`: group by round, rate per group,
sorted ascending by round (`groupby` already sorts; `sort_values("round")`
re-sorts by the same key). -/
def compute_hit_rates_by_round (df : List DraftRecord) : List RoundRow :=
  sortByLe (fun a b => intLe a.round b.round)
    ((grouped (·.round) intLe df).map fun x =>
      RoundRow.mk x.1 x.2.1 x.2.2 (rdiv x.2.1 x.2.2))

/-- Output row of `analyzer.compute_hit_rates_by_position`. -/
structure PosRow where
  pos : String
  allpro_count : Nat
  total_players : Nat
  hit_rate : ℚ
  deriving DecidableEq

/-- `analyzer.compute_hit_rates_by_position`: group by position, drop
groups with `total_players < min_players` (caller-supplied threshold,
pandas signature defaults it to 20), sort descending by hit rate. -/
def compute_hit_rates_by_position (df : List DraftRecord)
    (min_players : Nat) : List PosRow :=
  sortByLe (fun a b => decide (b.hit_rate ≤ a.hit_rate))
    (((grouped (·.pos) strLe df).map fun x =>
        PosRow.mk x.1 x.2.1 x.2.2 (rdiv x.2.1 x.2.2)).filter
      fun r => decide (min_players ≤ r.total_players))

/-- One cell of the position × round pivot built by
`analyzer.compute_hit_rates_by_round_and_position`.  `hit_rate = none`
models the `NaN` written over cells with fewer than 10 players. -/
structure CellRow where
  pos : String
  round : Int
  allpro_count : Nat
  total_players : Nat
  hit_rate : Option ℚ
  deriving DecidableEq

/-- Lexicographic order on the two-dimensional `groupby` key. -/
def pairLe (a b : String × Int) : Bool :=
  decide (a.1 < b.1 ∨ (a.1 = b.1 ∧ a.2 ≤ b.2))

/-- `analyzer.compute_hit_rates_by_round_and_position` before the
`pivot` reshape: the pivot carries exactly these cells (one per nonempty
(position, round) group), with `NaN` masked over groups of fewer than 10
players. -/
def compute_hit_rates_by_round_and_position (df : List DraftRecord) :
    List CellRow :=
  (grouped (fun r => (r.pos, r.round)) pairLe df).map fun x =>
    CellRow.mk x.1.1 x.1.2 x.2.1 x.2.2
      (if x.2.2 < 10 then none else some (rdiv x.2.1 x.2.2))

/-- Output row of `analyzer.compute_hit_rate_by_pick_number`. -/
structure PickRow where
  pick : Int
  allpro_count : Nat
  total_players : Nat
  hit_rate : ℚ
  rolling_hit_rate : ℚ
  deriving DecidableEq

/-- The window of positions pandas
`rolling(window=10, min_periods=1, center=True)` aggregates at row `i`:
the fixed-window indexer uses `offset = (10 - 1) / 2 = 4`, giving the
half-open position range `[i - 5, i + 5)` clipped to the frame. -/
def window10 (xs : List ℚ) (i : Nat) : List ℚ :=
  (xs.drop (i - 5)).take (min xs.length (i + 5) - (i - 5))

/-- The rolling mean at row `i`: `min_periods=1` means the clipped
(always nonempty) window is averaged as is. -/
def rollingMean10 (xs : List ℚ) (i : Nat) : ℚ :=
  ((window10 xs i).foldl (· + ·) 0) / ((window10 xs i).length : ℚ)

/-- The pick-level aggregation (`groupby("pick")` + rate), in ascending
pick order, before the rolling column is added. -/
def pickAgg (df : List DraftRecord) : List (Int × Nat × Nat × ℚ) :=
  (grouped (·.pick) intLe df).map fun x => (x.1, x.2.1, x.2.2, rdiv x.2.1 x.2.2)

/-- `analyzer.compute_hit_rate_by_pick_number`: group by pick (ascending),
rate per pick, plus the centered rolling mean over the rate column. -/
def compute_hit_rate_by_pick_number (df : List DraftRecord) : List PickRow :=
  (pickAgg df).enum.map fun ix =>
    PickRow.mk ix.2.1 ix.2.2.1 ix.2.2.2.1 ix.2.2.2.2
      (rollingMean10 ((pickAgg df).map (·.2.2.2)) ix.1)

/-- Output row of `analyzer.compute_value_table`. -/
structure ValueRow where
  pos : String
  r1_rate : ℚ
  r35_rate : ℚ
  late_round_to_r1_ratio : Option ℚ
  r35_count : Nat
  r1_count : Nat
  deriving DecidableEq

/-- `sort_values("late_round_to_r1_ratio", ascending=False)` comparator:
defined ratios descending, `NaN` (here `none`) always last — pandas moves
`NaN` to the end regardless of sort direction. -/
def ratioDescLe (a b : ValueRow) : Bool :=
  match a.late_round_to_r1_ratio, b.late_round_to_r1_ratio with
  | none, none => true
  | none, some _ => false
  | some _, none => true
  | some x, some y => decide (y ≤ x)

/-- The round-1 position grouping feeding the value table. -/
def r1Grouped (df : List DraftRecord) : List (String × Nat × Nat) :=
  grouped (·.pos) strLe (df.filter fun r => decide (r.round = 1))

/-- The rounds-3-through-5 (inclusive, `between(3, 5)`) position grouping
feeding the value table. -/
def r35Grouped (df : List DraftRecord) : List (String × Nat × Nat) :=
  grouped (·.pos) strLe
    (df.filter fun r => decide (3 ≤ r.round) && decide (r.round ≤ 5))

/-- `r1.merge(r35, on="position", how="inner")`: positions present in both
groupings, in left (round-1) order, carrying
`(position, r1_allpro, r1_count, r35_allpro, r35_count)`. -/
def valueJoined (df : List DraftRecord) :
    List (String × Nat × Nat × Nat × Nat) :=
  (r1Grouped df).filterMap fun x =>
    match (r35Grouped df).find? (fun y => decide (y.1 = x.1)) with
    | some y => some (x.1, x.2.1, x.2.2, y.2.1, y.2.2)
    | none => none

/-- `analyzer.compute_value_table`: per position, round-1 and rounds-3–5
counts and rates; inner-join the two groupings; keep positions with
`r1_count ≥ 5` and `r35_count ≥ 10`; ratio `r35_rate / r1_rate` with an
explicit `NaN` (`none`) when `r1_rate` is not positive; sort descending by
ratio. -/
def compute_value_table (df : List DraftRecord) : List ValueRow :=
  sortByLe ratioDescLe
    (((valueJoined df).filter fun t =>
        decide (5 ≤ t.2.2.1) && decide (10 ≤ t.2.2.2.2)).map fun t =>
      ValueRow.mk t.1 (rdiv t.2.1 t.2.2.1) (rdiv t.2.2.2.1 t.2.2.2.2)
        (if 0 < rdiv t.2.1 t.2.2.1
          then some (rdiv t.2.2.2.1 t.2.2.2.2 / rdiv t.2.1 t.2.2.1) else none)
        t.2.2.2.2 t.2.2.1)

/-! ### Lemmas about the sorting and grouping primitives -/

theorem perm_insertLe {α : Type} (le : α → α → Bool) (a : α) (l : List α) :
    (insertLe le a l).Perm (a :: l) := by
  induction l with
  | nil => simp [insertLe]
  | cons b bs ih =>
    by_cases h : le a b = true
    · simp [insertLe, h]
    · simp only [insertLe, h, Bool.false_eq_true, if_false]
      exact (ih.cons b).trans (List.Perm.swap a b bs)

theorem perm_sortByLe {α : Type} (le : α → α → Bool) (l : List α) :
    (sortByLe le l).Perm l := by
  induction l with
  | nil => exact List.Perm.refl _
  | cons a as ih => exact (perm_insertLe le a (sortByLe le as)).trans (ih.cons a)

theorem mem_sortByLe {α : Type} {le : α → α → Bool} {l : List α} {x : α} :
    x ∈ sortByLe le l ↔ x ∈ l :=
  (perm_sortByLe le l).mem_iff

theorem mem_insertLe {α : Type} {le : α → α → Bool} {a x : α} {l : List α}
    (h : x ∈ insertLe le a l) : x = a ∨ x ∈ l := by
  have := (perm_insertLe le a l).mem_iff.mp h
  simpa using this

theorem pairwise_insertLe {α : Type} {le : α → α → Bool}
    (htot : ∀ a b, le a b = true ∨ le b a = true)
    (htrans : ∀ a b c, le a b = true → le b c = true → le a c = true)
    (a : α) {l : List α} (h : l.Pairwise (fun x y => le x y = true)) :
    (insertLe le a l).Pairwise (fun x y => le x y = true) := by
  induction l with
  | nil => simp [insertLe]
  | cons b bs ih =>
    rcases List.pairwise_cons.mp h with ⟨hb, hbs⟩
    by_cases hab : le a b = true
    · have heq : insertLe le a (b :: bs) = a :: b :: bs := by
        simp [insertLe, hab]
      rw [heq]
      refine List.pairwise_cons.mpr ⟨?_, h⟩
      intro y hy
      rcases List.mem_cons.mp hy with rfl | hy
      · exact hab
      · exact htrans a b y hab (hb y hy)
    · have hba : le b a = true := (htot a b).resolve_left hab
      have heq : insertLe le a (b :: bs) = b :: insertLe le a bs := by
        simp [insertLe, hab]
      rw [heq]
      refine List.pairwise_cons.mpr ⟨?_, ih hbs⟩
      intro y hy
      rcases mem_insertLe hy with rfl | hy
      · exact hba
      · exact hb y hy

theorem pairwise_sortByLe {α : Type} {le : α → α → Bool}
    (htot : ∀ a b, le a b = true ∨ le b a = true)
    (htrans : ∀ a b c, le a b = true → le b c = true → le a c = true)
    (l : List α) : (sortByLe le l).Pairwise (fun x y => le x y = true) := by
  induction l with
  | nil => simp [sortByLe]
  | cons a as ih => exact pairwise_insertLe htot htrans a ih

theorem dedupKeys_cons {κ : Type} [DecidableEq κ] (k : κ) (ks : List κ) :
    dedupKeys (k :: ks)
      = if k ∈ dedupKeys ks then dedupKeys ks else k :: dedupKeys ks := rfl

theorem mem_dedupKeys {κ : Type} [DecidableEq κ] {l : List κ} {x : κ} :
    x ∈ dedupKeys l ↔ x ∈ l := by
  induction l with
  | nil => simp [dedupKeys]
  | cons k ks ih =>
    rw [dedupKeys_cons]
    by_cases h : k ∈ dedupKeys ks
    · rw [if_pos h, ih, List.mem_cons]
      constructor
      · exact Or.inr
      · rintro (rfl | hx)
        · exact ih.mp h
        · exact hx
    · rw [if_neg h, List.mem_cons, List.mem_cons, ih]

theorem nodup_dedupKeys {κ : Type} [DecidableEq κ] (l : List κ) :
    (dedupKeys l).Nodup := by
  induction l with
  | nil => simp [dedupKeys]
  | cons k ks ih =>
    rw [dedupKeys_cons]
    by_cases h : k ∈ dedupKeys ks
    · rw [if_pos h]; exact ih
    · rw [if_neg h]; exact List.nodup_cons.mpr ⟨h, ih⟩

theorem length_eq_sum_ones {α : Type} (l : List α) :
    l.length = (l.map fun _ => (1 : Nat)).sum := by
  induction l with
  | nil => rfl
  | cons a as ih =>
    rw [List.length_cons, List.map_cons, List.sum_cons, ih]
    omega

theorem sum_ite_single {κ : Type} [DecidableEq κ] {ks : List κ}
    (hnd : ks.Nodup) {a : κ} (ha : a ∈ ks) (v : Nat) :
    (ks.map fun k => if a = k then v else 0).sum = v := by
  induction ks with
  | nil => cases ha
  | cons k kt ih =>
    rcases List.nodup_cons.mp hnd with ⟨hk, hnt⟩
    rcases List.mem_cons.mp ha with rfl | ha
    · have : ∀ j ∈ kt, (if a = j then v else 0) = 0 := by
        intro j hj
        have : a ≠ j := fun h => hk (h ▸ hj)
        simp [this]
      simp [List.map_congr_left this]
    · have hak : a ≠ k := fun h => (h ▸ hk) ha
      simp [hak, ih hnt ha]

/-- Summing a function fiberwise over a duplicate-free covering key list
equals summing it over the whole list. -/
theorem partition_sum {α κ : Type} [DecidableEq κ] (keyOf : α → κ)
    (f : α → Nat) (rows : List α) (ks : List κ) (hnd : ks.Nodup)
    (hcov : ∀ r ∈ rows, keyOf r ∈ ks) :
    (ks.map fun k =>
      ((rows.filter fun r => decide (keyOf r = k)).map f).sum).sum
      = (rows.map f).sum := by
  induction rows with
  | nil => simp
  | cons r rest ih =>
    have hcov' : ∀ x ∈ rest, keyOf x ∈ ks := fun x hx => hcov x (List.mem_cons_of_mem r hx)
    have split : ∀ k : κ,
        ((( r :: rest).filter fun x => decide (keyOf x = k)).map f).sum
          = (if keyOf r = k then f r else 0)
            + ((rest.filter fun x => decide (keyOf x = k)).map f).sum := by
      intro k
      by_cases h : keyOf r = k
      · simp [List.filter_cons, h]
      · simp [List.filter_cons, h]
    calc (ks.map fun k => (((r :: rest).filter fun x => decide (keyOf x = k)).map f).sum).sum
        = (ks.map fun k => (if keyOf r = k then f r else 0)
            + ((rest.filter fun x => decide (keyOf x = k)).map f).sum).sum := by
          rw [List.map_congr_left (fun k _ => split k)]
      _ = (ks.map fun k => if keyOf r = k then f r else 0).sum
            + (ks.map fun k => ((rest.filter fun x => decide (keyOf x = k)).map f).sum).sum := by
          rw [← List.sum_map_add]
      _ = f r + (rest.map f).sum := by
          rw [sum_ite_single hnd (hcov r (List.mem_cons_self r rest)) (f r), ih hcov']
      _ = ((r :: rest).map f).sum := by simp

theorem sum_map_sortByLe {α β : Type} [AddCommMonoid β] (le : α → α → Bool)
    (f : α → β) (l : List α) :
    ((sortByLe le l).map f).sum = (l.map f).sum :=
  ((perm_sortByLe le l).map f).sum_eq

/-- `rdiv` is exactly rational division of the two counts. -/
theorem rdiv_eq_div (a t : Nat) : rdiv a t = (a : ℚ) / (t : ℚ) := by
  unfold rdiv
  rw [Rat.mkRat_eq_div, Int.cast_natCast]

theorem rdiv_nonneg (a t : Nat) : 0 ≤ rdiv a t := by
  rw [rdiv_eq_div]
  exact div_nonneg (Nat.cast_nonneg a) (Nat.cast_nonneg t)

/-- Shape of every row emitted by the group-and-count primitive: the key
occurs in the data, and the two aggregates are really the fiber's
`is_allpro` sum and size. -/
theorem mem_grouped {κ : Type} [DecidableEq κ] {keyOf : DraftRecord → κ}
    {leK : κ → κ → Bool} {rows : List DraftRecord} {x : κ × Nat × Nat}
    (hx : x ∈ grouped keyOf leK rows) :
    x.1 ∈ rows.map keyOf ∧
    x.2.1 = sumAllpro (rows.filter fun r => decide (keyOf r = x.1)) ∧
    x.2.2 = (rows.filter fun r => decide (keyOf r = x.1)).length := by
  rcases List.mem_map.mp hx with ⟨k, hk, hxk⟩
  have hk' : k ∈ rows.map keyOf := mem_dedupKeys.mp (mem_sortByLe.mp hk)
  subst hxk
  exact ⟨hk', rfl, rfl⟩

theorem grouped_keys_nodup {κ : Type} [DecidableEq κ]
    (keyOf : DraftRecord → κ) (leK : κ → κ → Bool)
    (rows : List DraftRecord) :
    ((grouped keyOf leK rows).map (·.1)).Nodup := by
  have h1 : (sortByLe leK (dedupKeys (rows.map keyOf))).Nodup :=
    (perm_sortByLe leK _).nodup_iff.mpr (nodup_dedupKeys _)
  unfold grouped
  rw [List.map_map]
  exact h1.map_on (fun a _ b _ h => h)

theorem grouped_keys_pairwise {κ : Type} [DecidableEq κ]
    {keyOf : DraftRecord → κ} {leK : κ → κ → Bool}
    (htot : ∀ a b, leK a b = true ∨ leK b a = true)
    (htrans : ∀ a b c, leK a b = true → leK b c = true → leK a c = true)
    (rows : List DraftRecord) :
    (grouped keyOf leK rows).Pairwise (fun x y => leK x.1 y.1 = true) := by
  unfold grouped
  exact (pairwise_sortByLe htot htrans _).map _ (fun a b h => h)

theorem grouped_sum_allpro {κ : Type} [DecidableEq κ]
    (keyOf : DraftRecord → κ) (leK : κ → κ → Bool)
    (rows : List DraftRecord) :
    ((grouped keyOf leK rows).map (fun x => x.2.1)).sum = sumAllpro rows := by
  unfold grouped
  rw [List.map_map]
  have hperm : (sortByLe leK (dedupKeys (rows.map keyOf))).Perm
      (dedupKeys (rows.map keyOf)) := perm_sortByLe _ _
  rw [(hperm.map _).sum_eq]
  exact partition_sum keyOf (·.is_allpro) rows _ (nodup_dedupKeys _)
    (fun r hr => mem_dedupKeys.mpr (List.mem_map_of_mem keyOf hr))

theorem grouped_sum_total {κ : Type} [DecidableEq κ]
    (keyOf : DraftRecord → κ) (leK : κ → κ → Bool)
    (rows : List DraftRecord) :
    ((grouped keyOf leK rows).map (fun x => x.2.2)).sum = rows.length := by
  unfold grouped
  rw [List.map_map]
  have hperm : (sortByLe leK (dedupKeys (rows.map keyOf))).Perm
      (dedupKeys (rows.map keyOf)) := perm_sortByLe _ _
  rw [(hperm.map _).sum_eq]
  have := partition_sum keyOf (fun _ => (1 : Nat)) rows
    (dedupKeys (rows.map keyOf)) (nodup_dedupKeys _)
    (fun r hr => mem_dedupKeys.mpr (List.mem_map_of_mem keyOf hr))
  calc ((dedupKeys (rows.map keyOf)).map
          fun k => ((rows.filter fun r => decide (keyOf r = k)).length)).sum
      = ((dedupKeys (rows.map keyOf)).map
          fun k => (((rows.filter fun r => decide (keyOf r = k)).map
            fun _ => (1 : Nat)).sum)).sum := by
        refine congrArg List.sum (List.map_congr_left ?_)
        intro k _
        exact length_eq_sum_ones _
    _ = (rows.map fun _ => (1 : Nat)).sum := this
    _ = rows.length := (length_eq_sum_ones rows).symm

/-! ### Concrete fixtures used by counterexamples and witnesses -/

/-- Aaron Donald's draft row (is_allpro not yet populated). -/
def aaronDraft : DraftRecord :=
  ⟨2014, 1, 13, "LAR", "Aaron Donald", "Pittsburgh", "DT",
   normalize_name "Aaron Donald", 0⟩

/-- An All-Pro selection for a different year than the draft year. -/
def aaronAllPro : AllProRecord :=
  ⟨some 2018, "Aaron Donald", "DT", "LAR", "aaron donald"⟩

/-- A draft record outside the hard-coded 2010–2021 cohort window. -/
def recC9 : DraftRecord := ⟨2005, 1, 1, "T", "P", "C", "QB", "p", 0⟩

/-- A single labeled record; its position group (1 player) is below the
default `min_players = 20`. -/
def recC5 : DraftRecord := ⟨2014, 1, 1, "T", "P", "C", "QB", "p", 1⟩

/-- Strip the derived label, keeping every other field. -/
def eraseFlag (r : DraftRecord) : DraftRecord := { r with is_allpro := 0 }

/-! ### C1: merge flags exactly the ever-All-Pro names -/

/-- C1: for every draft and All-Pro collection, `merge_datasets` gives a
record `is_allpro = 1` iff its `player_name_norm` occurs among the
normalized All-Pro names across all years (`0` otherwise, the flag being
binary); in particular the Aaron Donald record, matched against an
All-Pro set listing "aaron donald" for a different year, is flagged 1. -/
theorem merge_flags_iff_name_ever_allpro :
    (∀ (draft : List DraftRecord) (allpro : List AllProRecord),
      ∀ r ∈ merge_datasets draft allpro,
        (r.is_allpro = 1 ↔ ∃ ar ∈ allpro, ar.player_name_norm = r.player_name_norm) ∧
        (r.is_allpro = 1 ∨ r.is_allpro = 0)) ∧
    normalize_name "Aaron Donald" = "aaron donald" ∧
    (merge_datasets [aaronDraft] [aaronAllPro]).map (·.is_allpro) = [1] := by
  refine ⟨?_, by decide, by decide⟩
  intro draft allpro r hr
  unfold merge_datasets at hr
  rcases List.mem_map.mp hr with ⟨d, _, rfl⟩
  constructor
  · show (if d.player_name_norm ∈ allpro.map (·.player_name_norm) then 1 else 0) = 1 ↔
      ∃ ar ∈ allpro, ar.player_name_norm = d.player_name_norm
    by_cases h : d.player_name_norm ∈ allpro.map (·.player_name_norm)
    · rw [if_pos h]
      rcases List.mem_map.mp h with ⟨ar, har, hareq⟩
      exact ⟨fun _ => ⟨ar, har, hareq⟩, fun _ => rfl⟩
    · rw [if_neg h]
      constructor
      · intro h0
        exact absurd h0 (by decide)
      · rintro ⟨ar, har, hareq⟩
        exact absurd (List.mem_map.mpr ⟨ar, har, hareq⟩) h
  · show (if d.player_name_norm ∈ allpro.map (·.player_name_norm) then 1 else 0) = 1 ∨
      (if d.player_name_norm ∈ allpro.map (·.player_name_norm) then 1 else 0) = 0
    by_cases h : d.player_name_norm ∈ allpro.map (·.player_name_norm)
    · exact Or.inl (by rw [if_pos h])
    · exact Or.inr (by rw [if_neg h])

theorem merge_flags_iff_name_ever_allpro_witness :
    ((merge_datasets [aaronDraft] [aaronAllPro]).headD recC9).is_allpro = 1 ↔
      ∃ ar ∈ [aaronAllPro], ar.player_name_norm =
        ((merge_datasets [aaronDraft] [aaronAllPro]).headD recC9).player_name_norm :=
  (merge_flags_iff_name_ever_allpro.1 [aaronDraft] [aaronAllPro] _ (by decide)).1

/-! ### C9: the cohort filter is an inclusive range filter with fixed
bounds, not caller-supplied ones -/

/-- C9 counterexample: `filter_analysis_cohort` takes no bounds; for the
claimed bounds `year_min = 2000, year_max = 2006` and a 2005 record it
returns the empty list although the record lies inside those bounds, so
it is not the inclusive range filter for every choice of bounds. -/
theorem cohort_filter_not_parametric :
    2000 ≤ recC9.year ∧ recC9.year ≤ 2006 ∧
    filter_analysis_cohort [recC9] = [] := by decide

/-- C9 amended: the cohort filter is the inclusive range filter on draft
year for the hard-coded bounds `year_min = 2010`, `year_max = 2021`: it
retains exactly the records with `2010 ≤ year ≤ 2021`, each unchanged and
in their original order (a sublist of the input). -/
theorem cohort_filter_fixed_range (df : List DraftRecord) (r : DraftRecord) :
    (r ∈ filter_analysis_cohort df ↔ r ∈ df ∧ 2010 ≤ r.year ∧ r.year ≤ 2021) ∧
    (filter_analysis_cohort df).Sublist df := by
  refine ⟨?_, List.filter_sublist df⟩
  unfold filter_analysis_cohort
  rw [List.mem_filter]
  simp

/-! ### C10: merge is a per-record relabeling that keeps all other fields -/

/-- C10: `merge_datasets` returns exactly the input draft records in the
same order with every field other than `is_allpro` unchanged (the pandas
code writes the new column on a `.copy()`, so the caller's input is not
mutated; in this embedding inputs are immutable values). -/
theorem merge_preserves_draft_fields (draft : List DraftRecord)
    (allpro : List AllProRecord) :
    (merge_datasets draft allpro).length = draft.length ∧
    (merge_datasets draft allpro).map eraseFlag = draft.map eraseFlag := by
  constructor
  · unfold merge_datasets
    exact List.length_map draft _
  · unfold merge_datasets
    rw [List.map_map]
    exact List.map_congr_left (fun r _ => rfl)

/-! ### C3: pivot cells are masked exactly below the 10-player threshold -/

/-- C3: in the round-by-position pivot, a cell carries the
insufficient-sample sentinel (`none`, distinct from an observed rate of
`some 0`) iff its group has fewer than 10 players; cells with 10 or more
players carry the observed rate, and `total_players` really is the size
of the (position, round) fiber of the input. -/
theorem pivot_sentinel_iff_small_sample (df : List DraftRecord) :
    ∀ cell ∈ compute_hit_rates_by_round_and_position df,
      (cell.hit_rate = none ↔ cell.total_players < 10) ∧
      (10 ≤ cell.total_players →
        cell.hit_rate = some (rdiv cell.allpro_count cell.total_players)) ∧
      cell.total_players =
        (df.filter fun r => decide (r.pos = cell.pos ∧ r.round = cell.round)).length := by
  intro cell hc
  unfold compute_hit_rates_by_round_and_position at hc
  rcases List.mem_map.mp hc with ⟨x, hx, rfl⟩
  rcases mem_grouped hx with ⟨_, _, ht⟩
  refine ⟨?_, ?_, ?_⟩
  · by_cases h : x.2.2 < 10
    · simp [h]
    · simp [h]
  · intro h10
    have h : ¬ x.2.2 < 10 := not_lt.mpr h10
    simp [h]
  · show x.2.2 = _
    rw [ht]
    refine congrArg List.length (List.filter_congr ?_)
    intro r _
    show decide ((r.pos, r.round) = x.1) = decide (r.pos = x.1.1 ∧ r.round = x.1.2)
    rw [decide_eq_decide, Prod.ext_iff]

/-- First cell of the pivot on `[recC5]`. -/
def cellC3 : CellRow :=
  (compute_hit_rates_by_round_and_position [recC5]).headD (CellRow.mk "" 0 0 0 none)

theorem pivot_sentinel_iff_small_sample_witness :
    (cellC3.hit_rate = none ↔ cellC3.total_players < 10) ∧
    (10 ≤ cellC3.total_players →
      cellC3.hit_rate = some (rdiv cellC3.allpro_count cellC3.total_players)) ∧
    cellC3.total_players =
      (([recC5]).filter fun r =>
        decide (r.pos = cellC3.pos ∧ r.round = cellC3.round)).length :=
  pivot_sentinel_iff_small_sample [recC5] cellC3 (by decide)

/-! ### C4: by-position view drops small groups and sorts by rate -/

/-- C4: for every input and threshold, the by-position view contains no
group with `total_players < min_players`, its aggregates are the true
fiber statistics, and its rows are sorted descending by `hit_rate`. -/
theorem position_view_thresholded_sorted (df : List DraftRecord)
    (min_players : Nat) :
    (∀ row ∈ compute_hit_rates_by_position df min_players,
      min_players ≤ row.total_players ∧
      row.total_players = (df.filter fun r => decide (r.pos = row.pos)).length ∧
      row.allpro_count = sumAllpro (df.filter fun r => decide (r.pos = row.pos)) ∧
      row.hit_rate = rdiv row.allpro_count row.total_players) ∧
    (compute_hit_rates_by_position df min_players).Pairwise
      (fun a b => b.hit_rate ≤ a.hit_rate) := by
  constructor
  · intro row hrow
    unfold compute_hit_rates_by_position at hrow
    have hrow' := mem_sortByLe.mp hrow
    rcases List.mem_filter.mp hrow' with ⟨hmem, hmin⟩
    rcases List.mem_map.mp hmem with ⟨x, hx, rfl⟩
    rcases mem_grouped hx with ⟨_, ha, ht⟩
    exact ⟨of_decide_eq_true hmin, ht, ha, rfl⟩
  · unfold compute_hit_rates_by_position
    refine (pairwise_sortByLe ?_ ?_ _).imp (fun h => of_decide_eq_true h)
    · intro a b
      rcases le_total b.hit_rate a.hit_rate with h | h
      · exact Or.inl (decide_eq_true h)
      · exact Or.inr (decide_eq_true h)
    · intro a b c h1 h2
      exact decide_eq_true (le_trans (of_decide_eq_true h2) (of_decide_eq_true h1))

/-- First row of the by-position view on `[recC5]` at threshold 1. -/
def posRowC4 : PosRow :=
  (compute_hit_rates_by_position [recC5] 1).headD (PosRow.mk "" 0 0 0)

theorem position_view_thresholded_sorted_witness :
    1 ≤ posRowC4.total_players ∧
    posRowC4.total_players =
      (([recC5]).filter fun r => decide (r.pos = posRowC4.pos)).length ∧
    posRowC4.allpro_count =
      sumAllpro (([recC5]).filter fun r => decide (r.pos = posRowC4.pos)) ∧
    posRowC4.hit_rate = rdiv posRowC4.allpro_count posRowC4.total_players :=
  (position_view_thresholded_sorted [recC5] 1).1 posRowC4 (by decide)

/-! ### C5: conservation holds by round, fails by position (corrected) -/

/-- C5 counterexample: the by-position view filters out small groups, so
on a single labeled record with the default threshold 20 both group sums
differ from the input sums — rows are lost, contradicting the claim that
conservation holds for each of the grouped views. -/
theorem position_view_breaks_conservation :
    ((compute_hit_rates_by_position [recC5] 20).map (·.allpro_count)).sum ≠
      sumAllpro [recC5] ∧
    ((compute_hit_rates_by_position [recC5] 20).map (·.total_players)).sum ≠
      [recC5].length := by decide

/-- C5 amended: conservation (group sums of `allpro_count` and
`total_players` equal the input's `is_allpro` sum and row count) holds
unconditionally for the by-round view, and for the by-position view
whenever every position group meets the `min_players` threshold (the
filter drops the whole group, records included, otherwise). -/
theorem grouping_conservation (df : List DraftRecord) (min_players : Nat) :
    (((compute_hit_rates_by_round df).map (·.allpro_count)).sum = sumAllpro df ∧
     ((compute_hit_rates_by_round df).map (·.total_players)).sum = df.length) ∧
    ((∀ p ∈ df.map (·.pos),
        min_players ≤ (df.filter fun r => decide (r.pos = p)).length) →
      ((compute_hit_rates_by_position df min_players).map (·.allpro_count)).sum
        = sumAllpro df ∧
      ((compute_hit_rates_by_position df min_players).map (·.total_players)).sum
        = df.length) := by
  constructor
  · unfold compute_hit_rates_by_round
    constructor
    · rw [sum_map_sortByLe, List.map_map]
      exact grouped_sum_allpro (·.round) intLe df
    · rw [sum_map_sortByLe, List.map_map]
      exact grouped_sum_total (·.round) intLe df
  · intro hbig
    unfold compute_hit_rates_by_position
    have hall : ∀ row ∈ (grouped (·.pos) strLe df).map (fun x =>
        PosRow.mk x.1 x.2.1 x.2.2 (rdiv x.2.1 x.2.2)),
        decide (min_players ≤ row.total_players) = true := by
      intro row hrow
      rcases List.mem_map.mp hrow with ⟨x, hx, rfl⟩
      rcases mem_grouped hx with ⟨hk, _, ht⟩
      exact decide_eq_true (ht ▸ hbig x.1 hk)
    rw [List.filter_eq_self.mpr hall]
    constructor
    · rw [sum_map_sortByLe, List.map_map]
      exact grouped_sum_allpro (·.pos) strLe df
    · rw [sum_map_sortByLe, List.map_map]
      exact grouped_sum_total (·.pos) strLe df

theorem grouping_conservation_witness :
    ((compute_hit_rates_by_position [recC5] 1).map (·.allpro_count)).sum
      = sumAllpro [recC5] ∧
    ((compute_hit_rates_by_position [recC5] 1).map (·.total_players)).sum
      = [recC5].length :=
  (grouping_conservation [recC5] 1).2 (by decide)

/-! ### C8: rolling mean of a constant curve is that constant -/

theorem foldl_add_const (w : List ℚ) (q : ℚ) (h : ∀ x ∈ w, x = q) :
    ∀ init : ℚ, w.foldl (· + ·) init = init + w.length * q := by
  induction w with
  | nil => intro init; simp
  | cons a as ih =>
    intro init
    have ha : a = q := h a (List.mem_cons_self a as)
    have h' : ∀ x ∈ as, x = q := fun x hx => h x (List.mem_cons_of_mem a hx)
    rw [List.foldl_cons, ih h' (init + a), ha, List.length_cons]
    push_cast
    ring

theorem length_window10_pos (xs : List ℚ) {i : Nat} (hi : i < xs.length) :
    0 < (window10 xs i).length := by
  unfold window10
  rw [List.length_take, List.length_drop]
  have h1 : i + 1 ≤ min xs.length (i + 5) := le_min (by omega) (by omega)
  omega

theorem rollingMean10_const (xs : List ℚ) (q : ℚ) (hall : ∀ x ∈ xs, x = q)
    {i : Nat} (hi : i < xs.length) : rollingMean10 xs i = q := by
  unfold rollingMean10
  have hwmem : ∀ x ∈ window10 xs i, x = q := fun x hx =>
    hall x (List.Sublist.mem
      (List.Sublist.mem hx (List.take_sublist _ _)) (List.drop_sublist _ _))
  rw [foldl_add_const _ q hwmem 0, zero_add]
  have hne : ((window10 xs i).length : ℚ) ≠ 0 :=
    Nat.cast_ne_zero.mpr (Nat.pos_iff_ne_zero.mp (length_window10_pos xs hi))
  exact mul_div_cancel_left₀ q hne

theorem intLe_total (a b : Int) : intLe a b = true ∨ intLe b a = true := by
  rcases le_total a b with h | h
  · exact Or.inl (decide_eq_true h)
  · exact Or.inr (decide_eq_true h)

theorem intLe_trans (a b c : Int) (h1 : intLe a b = true)
    (h2 : intLe b c = true) : intLe a c = true :=
  decide_eq_true (le_trans (of_decide_eq_true h1) (of_decide_eq_true h2))

/-- The pick-level aggregation lists picks in strictly increasing order. -/
theorem pickAgg_pairwise_lt (df : List DraftRecord) :
    (pickAgg df).Pairwise (fun x y => x.1 < y.1) := by
  have hle : (grouped (·.pick) intLe df).Pairwise
      (fun x y => intLe x.1 y.1 = true) :=
    grouped_keys_pairwise intLe_total intLe_trans df
  have hne : (grouped (·.pick) intLe df).Pairwise (fun x y => x.1 ≠ y.1) :=
    List.pairwise_map.mp (grouped_keys_nodup (·.pick) intLe df)
  have hlt : (grouped (·.pick) intLe df).Pairwise (fun x y => x.1 < y.1) :=
    (hle.and hne).imp fun h => lt_of_le_of_ne (of_decide_eq_true h.1) h.2
  unfold pickAgg
  exact List.pairwise_map.mpr (hlt.imp fun h => h)

/-- C8: in the by-pick view, whenever the per-pick hit rate is one and the
same constant at every pick, the centered window-10 rolling average equals
that constant at every pick — including the first and last rows, whose
shrinking windows introduce no boundary bias — and the rows are in
strictly ascending pick order. -/
theorem pick_view_rolling_constant_and_ordered (df : List DraftRecord) :
    (∀ q : ℚ, (∀ row ∈ compute_hit_rate_by_pick_number df, row.hit_rate = q) →
      ∀ row ∈ compute_hit_rate_by_pick_number df, row.rolling_hit_rate = q) ∧
    (compute_hit_rate_by_pick_number df).Pairwise (fun a b => a.pick < b.pick) := by
  constructor
  · intro q hconst row hrow
    unfold compute_hit_rate_by_pick_number at hrow
    rcases List.mem_map.mp hrow with ⟨ix, hix, rfl⟩
    have hget := List.mem_enum_iff_getElem?.mp hix
    rcases List.getElem?_eq_some.mp hget with ⟨hlt, _⟩
    have hrsq : ∀ v ∈ (pickAgg df).map (·.2.2.2), v = q := by
      intro v hv
      rcases List.mem_map.mp hv with ⟨x, hx, rfl⟩
      rcases List.getElem_of_mem hx with ⟨j, hj, hgj⟩
      have hjenum : (j, x) ∈ (pickAgg df).enum :=
        List.mem_enum_iff_getElem?.mpr (List.getElem?_eq_some.mpr ⟨hj, hgj⟩)
      have hrmem : PickRow.mk x.1 x.2.1 x.2.2.1 x.2.2.2
          (rollingMean10 ((pickAgg df).map (·.2.2.2)) j)
          ∈ compute_hit_rate_by_pick_number df := by
        unfold compute_hit_rate_by_pick_number
        exact List.mem_map.mpr ⟨(j, x), hjenum, rfl⟩
      exact hconst _ hrmem
    show rollingMean10 ((pickAgg df).map (·.2.2.2)) ix.1 = q
    refine rollingMean10_const _ q hrsq ?_
    rw [List.length_map]
    exact hlt
  · have henum : (pickAgg df).enum.Pairwise (fun a b => a.2.1 < b.2.1) := by
      have h2 : ((pickAgg df).enum.map Prod.snd).Pairwise
          (fun x y => x.1 < y.1) := by
        rw [List.enum_map_snd]
        exact pickAgg_pairwise_lt df
      exact (@List.pairwise_map _ _ Prod.snd (fun x y => x.1 < y.1)
        ((pickAgg df).enum)).mp h2
    unfold compute_hit_rate_by_pick_number
    exact List.Pairwise.map _ (fun a b h => h) henum

/-! ### C2: value table thresholds, undefined-ratio marker, sort order -/

theorem ratioDescLe_total (a b : ValueRow) :
    ratioDescLe a b = true ∨ ratioDescLe b a = true := by
  unfold ratioDescLe
  rcases a.late_round_to_r1_ratio with _ | x <;>
    rcases b.late_round_to_r1_ratio with _ | y
  · exact Or.inl rfl
  · exact Or.inr rfl
  · exact Or.inl rfl
  · rcases le_total y x with h | h
    · exact Or.inl (decide_eq_true h)
    · exact Or.inr (decide_eq_true h)

theorem ratioDescLe_trans (a b c : ValueRow) (h1 : ratioDescLe a b = true)
    (h2 : ratioDescLe b c = true) : ratioDescLe a c = true := by
  unfold ratioDescLe at h1 h2 ⊢
  rcases ha : a.late_round_to_r1_ratio with _ | x <;>
    rcases hb : b.late_round_to_r1_ratio with _ | y <;>
      rcases hc : c.late_round_to_r1_ratio with _ | z <;>
        rw [ha, hb] at h1 <;> rw [hb, hc] at h2 <;>
          simp at h1 h2 ⊢
  exact le_trans h2 h1

/-- The join row really pairs a round-1 group with the same-position
rounds-3–5 group. -/
theorem mem_valueJoined {df : List DraftRecord}
    {t : String × Nat × Nat × Nat × Nat} (ht : t ∈ valueJoined df) :
    ∃ x ∈ r1Grouped df, ∃ y ∈ r35Grouped df,
      y.1 = x.1 ∧ t = (x.1, x.2.1, x.2.2, y.2.1, y.2.2) := by
  unfold valueJoined at ht
  rcases List.mem_filterMap.mp ht with ⟨x, hx, hxt⟩
  cases hfind : (r35Grouped df).find? (fun y => decide (y.1 = x.1)) with
  | none => rw [hfind] at hxt; cases hxt
  | some y =>
    rw [hfind] at hxt
    have hpy := List.find?_some hfind
    have hmy := List.mem_of_find?_eq_some hfind
    exact ⟨x, hx, y, hmy, of_decide_eq_true hpy, (Option.some_inj.mp hxt).symm⟩

/-- C2: every value-table row passes both sample thresholds (its counts
being the true fiber sizes of the input), its ratio is the `none` marker
exactly when the round-1 rate is zero and the computed quotient otherwise,
and rows are sorted descending by ratio with all undefined-ratio rows
after the defined ones. -/
theorem value_table_thresholds_ratio_sorted (df : List DraftRecord) :
    (∀ row ∈ compute_value_table df,
      5 ≤ row.r1_count ∧ 10 ≤ row.r35_count ∧
      row.r1_count = ((df.filter fun r => decide (r.round = 1)).filter
        fun r => decide (r.pos = row.pos)).length ∧
      row.r35_count = ((df.filter fun r =>
          decide (3 ≤ r.round) && decide (r.round ≤ 5)).filter
        fun r => decide (r.pos = row.pos)).length ∧
      (row.late_round_to_r1_ratio = none ↔ row.r1_rate = 0) ∧
      (row.r1_rate ≠ 0 →
        row.late_round_to_r1_ratio = some (row.r35_rate / row.r1_rate))) ∧
    (compute_value_table df).Pairwise (fun a b =>
      b.late_round_to_r1_ratio = none ∨
      ∃ x y, a.late_round_to_r1_ratio = some x ∧
        b.late_round_to_r1_ratio = some y ∧ y ≤ x) := by
  constructor
  · intro row hrow
    unfold compute_value_table at hrow
    have hrow' := mem_sortByLe.mp hrow
    rcases List.mem_map.mp hrow' with ⟨t, htf, rfl⟩
    rcases List.mem_filter.mp htf with ⟨htj, hth⟩
    simp only [Bool.and_eq_true, decide_eq_true_eq] at hth
    obtain ⟨h5, h10⟩ := hth
    rcases mem_valueJoined htj with ⟨x, hx, y, hy, hyx, rfl⟩
    rcases mem_grouped hx with ⟨_, _, hxt⟩
    rcases mem_grouped hy with ⟨_, _, hyt⟩
    refine ⟨h5, h10, hxt, ?_, ?_, ?_⟩
    · rw [hyt, hyx]
    · have hnneg := rdiv_nonneg x.2.1 x.2.2
      by_cases hpos : 0 < rdiv x.2.1 x.2.2
      · show (if 0 < rdiv x.2.1 x.2.2 then _ else none) = none ↔ _
        rw [if_pos hpos]
        constructor
        · intro h; cases h
        · intro h0
          exact absurd h0 (ne_of_gt hpos)
      · show (if 0 < rdiv x.2.1 x.2.2 then _ else none) = none ↔ _
        rw [if_neg hpos]
        exact ⟨fun _ => le_antisymm (not_lt.mp hpos) hnneg, fun _ => rfl⟩
    · intro hne
      have hpos : 0 < rdiv x.2.1 x.2.2 :=
        lt_of_le_of_ne (rdiv_nonneg x.2.1 x.2.2) (Ne.symm hne)
      show (if 0 < rdiv x.2.1 x.2.2 then _ else none) = _
      rw [if_pos hpos]
  · unfold compute_value_table
    refine (pairwise_sortByLe ratioDescLe_total ratioDescLe_trans _).imp ?_
    intro a b h
    unfold ratioDescLe at h
    rcases ha : a.late_round_to_r1_ratio with _ | x <;>
      rcases hb : b.late_round_to_r1_ratio with _ | y
    · exact Or.inl rfl
    · rw [ha, hb] at h; cases h
    · exact Or.inl rfl
    · rw [ha, hb] at h
      exact Or.inr ⟨x, y, rfl, rfl, of_decide_eq_true h⟩

/-! ### Witness fixtures and witnesses needing rational evaluation -/

/-- A round-1 QB record. -/
def qbR1 (ap : Nat) : DraftRecord := ⟨2014, 1, 10, "T", "P", "C", "QB", "p", ap⟩

/-- A round-4 QB record. -/
def qbR4 (ap : Nat) : DraftRecord := ⟨2014, 4, 110, "T", "P", "C", "QB", "p", ap⟩

/-- 5 round-1 QBs (1 All-Pro) and 11 round-4 QBs (1 All-Pro): passes both
value-table thresholds with a defined ratio. -/
def dfC2 : List DraftRecord :=
  List.replicate 4 (qbR1 0) ++ [qbR1 1] ++ List.replicate 10 (qbR4 0) ++ [qbR4 1]

/-- First row of the value table on `dfC2`. -/
def vrowC2 : ValueRow :=
  (compute_value_table dfC2).headD (ValueRow.mk "" 0 0 none 0 0)

/-- First row of the by-pick view on `[recC5]` (every pick has rate 1). -/
def pickRowC8 : PickRow :=
  (compute_hit_rate_by_pick_number [recC5]).headD (PickRow.mk 0 0 0 0 0)

section
attribute [local semireducible] Rat.mul Rat.add Rat.inv Rat.sub

theorem value_table_thresholds_ratio_sorted_witness :
    5 ≤ vrowC2.r1_count ∧ 10 ≤ vrowC2.r35_count ∧
    vrowC2.r1_count = ((dfC2.filter fun r => decide (r.round = 1)).filter
      fun r => decide (r.pos = vrowC2.pos)).length ∧
    vrowC2.r35_count = ((dfC2.filter fun r =>
        decide (3 ≤ r.round) && decide (r.round ≤ 5)).filter
      fun r => decide (r.pos = vrowC2.pos)).length ∧
    (vrowC2.late_round_to_r1_ratio = none ↔ vrowC2.r1_rate = 0) ∧
    (vrowC2.r1_rate ≠ 0 →
      vrowC2.late_round_to_r1_ratio = some (vrowC2.r35_rate / vrowC2.r1_rate)) :=
  (value_table_thresholds_ratio_sorted dfC2).1 vrowC2 (by decide)

theorem pick_view_rolling_constant_and_ordered_witness :
    pickRowC8.rolling_hit_rate = 1 :=
  (pick_view_rolling_constant_and_ordered [recC5]).1 1 (by decide)
    pickRowC8 (by decide)

end

/-! ### C7: suffix-before-punctuation ordering collapses equivalent forms -/

/-- C7: because suffix removal runs before punctuation stripping,
"Smith, Jr." and "SMITH JR" normalize to the same key, "smith". -/
theorem normalize_collapses_suffix_forms :
    normalize_name "Smith, Jr." = normalize_name "SMITH JR" ∧
    normalize_name "Smith, Jr." = "smith" := by decide

/-! ### C6: normalization is not idempotent in general (corrected)

Stripping punctuation can manufacture a fresh suffix token: in "j.r." the
suffix regex finds no word-boundary token (the dot separates j and r), but
punctuation removal then glues them into "jr", which a second pass
deletes. -/

/-- C6 counterexample: `normalize` is not idempotent on "j.r.". -/
theorem normalize_not_idempotent :
    normalize_name (normalize_name "j.r.") ≠ normalize_name "j.r." ∧
    normalize_name "j.r." = "jr" ∧ normalize_name "jr" = "" := by decide

theorem toLower_toLower (c : Char) : c.toLower.toLower = c.toLower := by
  by_cases h : c.toNat ≥ 65 ∧ c.toNat ≤ 90
  · have h1 : c.toLower = Char.ofNat (c.toNat + 32) := by
      show (if c.toNat ≥ 65 ∧ c.toNat ≤ 90 then Char.ofNat (c.toNat + 32) else c) = _
      rw [if_pos h]
    rw [h1]
    obtain ⟨h65, h90⟩ := h
    have key : ∀ n : ℕ, 65 ≤ n → n ≤ 90 →
        (Char.ofNat (n + 32)).toLower = Char.ofNat (n + 32) := by
      intro n hn1 hn2
      interval_cases n <;> decide
    exact key c.toNat h65 h90
  · have h1 : c.toLower = c := by
      show (if c.toNat ≥ 65 ∧ c.toNat ≤ 90 then Char.ofNat (c.toNat + 32) else c) = c
      rw [if_neg h]
    rw [h1]
    exact h1

/-! Membership through the normalization stages. -/

theorem mem_stripWs {l : List Char} {c : Char} (h : c ∈ stripWs l) : c ∈ l := by
  unfold stripWs at h
  rw [List.mem_reverse] at h
  have h2 := List.Sublist.mem h (List.dropWhile_sublist _)
  rw [List.mem_reverse] at h2
  exact List.Sublist.mem h2 (List.dropWhile_sublist _)

theorem mem_collapseAux {c : Char} :
    ∀ (l : List Char) (b : Bool), c ∈ collapseAux b l → c ∈ l ∨ c = ' ' := by
  intro l
  induction l with
  | nil => intro b h; cases h
  | cons d ds ih =>
    intro b h
    by_cases hd : isSpaceChar d = true
    · by_cases hb : b = true
      · subst hb
        rw [show collapseAux true (d :: ds) = collapseAux true ds by
          simp [collapseAux, hd]] at h
        rcases ih true h with h2 | h2
        · exact Or.inl (List.mem_cons_of_mem d h2)
        · exact Or.inr h2
      · rw [Bool.not_eq_true] at hb
        subst hb
        rw [show collapseAux false (d :: ds) = ' ' :: collapseAux true ds by
          simp [collapseAux, hd]] at h
        rcases List.mem_cons.mp h with rfl | h2
        · exact Or.inr rfl
        · rcases ih true h2 with h3 | h3
          · exact Or.inl (List.mem_cons_of_mem d h3)
          · exact Or.inr h3
    · rw [show collapseAux b (d :: ds) = d :: collapseAux false ds by
        simp [collapseAux, hd]] at h
      rcases List.mem_cons.mp h with rfl | h2
      · exact Or.inl (List.mem_cons_self _ _)
      · rcases ih false h2 with h3 | h3
        · exact Or.inl (List.mem_cons_of_mem d h3)
        · exact Or.inr h3

theorem mem_flushRun {acc : List Char} {c : Char} (h : c ∈ flushRun acc) :
    c ∈ acc := by
  unfold flushRun at h
  by_cases hm : acc ∈ suffixTokens
  · rw [if_pos hm] at h; cases h
  · rwa [if_neg hm] at h

theorem mem_rmSuffAux {c : Char} :
    ∀ (l acc : List Char), c ∈ rmSuffAux acc l → c ∈ acc ∨ c ∈ l := by
  intro l
  induction l with
  | nil => intro acc h; exact Or.inl (mem_flushRun h)
  | cons d ds ih =>
    intro acc h
    by_cases hd : isWordChar d = true
    · rw [show rmSuffAux acc (d :: ds) = rmSuffAux (acc ++ [d]) ds by
        simp [rmSuffAux, hd]] at h
      rcases ih (acc ++ [d]) h with h2 | h2
      · rcases List.mem_append.mp h2 with h3 | h3
        · exact Or.inl h3
        · rcases List.mem_singleton.mp h3 with rfl
          exact Or.inr (List.mem_cons_self _ _)
      · exact Or.inr (List.mem_cons_of_mem d h2)
    · rw [show rmSuffAux acc (d :: ds) = flushRun acc ++ d :: rmSuffAux [] ds by
        simp [rmSuffAux, hd]] at h
      rcases List.mem_append.mp h with h2 | h2
      · exact Or.inl (mem_flushRun h2)
      · rcases List.mem_cons.mp h2 with rfl | h3
        · exact Or.inr (List.mem_cons_self _ _)
        · rcases ih [] h3 with h4 | h4
          · cases h4
          · exact Or.inr (List.mem_cons_of_mem d h4)

/-- Every character of a normalized name is lowercase-fixed and survives
punctuation stripping. -/
theorem normalizeList_chars (s : List Char) :
    ∀ c ∈ normalizeList s, c.toLower = c ∧ keepChar c = true := by
  intro c hc
  unfold normalizeList at hc
  have hc1 := mem_stripWs hc
  rcases mem_collapseAux _ false hc1 with hc2 | rfl
  · have hkeep := (List.mem_filter.mp hc2).2
    have hc3 := (List.mem_filter.mp hc2).1
    have hc4 : c ∈ stripWs ((s.map Char.toLower)) := by
      rcases mem_rmSuffAux _ [] hc3 with h | h
      · cases h
      · exact h
    have hc5 := mem_stripWs hc4
    rcases List.mem_map.mp hc5 with ⟨d, _, rfl⟩
    exact ⟨toLower_toLower d, hkeep⟩
  · exact ⟨by decide, by decide⟩

/-! Whitespace canonicity of the collapse stage. -/

/-- Adjacent-space freedom: no two neighbouring whitespace characters. -/
def noTwoSpaces (a b : Char) : Prop :=
  ¬(isSpaceChar a = true ∧ isSpaceChar b = true)

theorem collapseAux_spaces {c : Char} :
    ∀ (l : List Char) (b : Bool), c ∈ collapseAux b l →
      isSpaceChar c = true → c = ' ' := by
  intro l
  induction l with
  | nil => intro b h; cases h
  | cons d ds ih =>
    intro b h hsp
    by_cases hd : isSpaceChar d = true
    · by_cases hb : b = true
      · subst hb
        rw [show collapseAux true (d :: ds) = collapseAux true ds by
          simp [collapseAux, hd]] at h
        exact ih true h hsp
      · rw [Bool.not_eq_true] at hb
        subst hb
        rw [show collapseAux false (d :: ds) = ' ' :: collapseAux true ds by
          simp [collapseAux, hd]] at h
        rcases List.mem_cons.mp h with rfl | h2
        · rfl
        · exact ih true h2 hsp
    · rw [show collapseAux b (d :: ds) = d :: collapseAux false ds by
        simp [collapseAux, hd]] at h
      rcases List.mem_cons.mp h with rfl | h2
      · exact absurd hsp (by simp [hd])
      · exact ih false h2 hsp

theorem collapseAux_true_head :
    ∀ (l : List Char) (c : Char), (collapseAux true l).head? = some c →
      isSpaceChar c = false := by
  intro l
  induction l with
  | nil => intro c h; cases h
  | cons d ds ih =>
    intro c h
    by_cases hd : isSpaceChar d = true
    · rw [show collapseAux true (d :: ds) = collapseAux true ds by
        simp [collapseAux, hd]] at h
      exact ih c h
    · rw [show collapseAux true (d :: ds) = d :: collapseAux false ds by
        simp [collapseAux, hd]] at h
      rcases Option.some_inj.mp h with rfl
      exact Bool.not_eq_true _ ▸ hd

theorem collapseAux_chain :
    ∀ (l : List Char) (b : Bool), (collapseAux b l).Chain' noTwoSpaces := by
  intro l
  induction l with
  | nil => intro b; exact List.chain'_nil
  | cons d ds ih =>
    intro b
    by_cases hd : isSpaceChar d = true
    · by_cases hb : b = true
      · subst hb
        rw [show collapseAux true (d :: ds) = collapseAux true ds by
          simp [collapseAux, hd]]
        exact ih true
      · rw [Bool.not_eq_true] at hb
        subst hb
        rw [show collapseAux false (d :: ds) = ' ' :: collapseAux true ds by
          simp [collapseAux, hd]]
        refine List.chain'_cons'.mpr ⟨?_, ih true⟩
        intro z hz
        intro hand
        have := collapseAux_true_head ds z hz
        rw [this] at hand
        exact Bool.false_ne_true hand.2
    · rw [show collapseAux b (d :: ds) = d :: collapseAux false ds by
        simp [collapseAux, hd]]
      refine List.chain'_cons'.mpr ⟨?_, ih false⟩
      intro z _
      intro hand
      exact hd hand.1

/-! The strip stage preserves whitespace canonicity and produces
space-free edges. -/

theorem noTwoSpaces_symm {a b : Char} (h : noTwoSpaces a b) : noTwoSpaces b a :=
  fun hand => h ⟨hand.2, hand.1⟩

theorem chain_stripWs {l : List Char} (h : l.Chain' noTwoSpaces) :
    (stripWs l).Chain' noTwoSpaces := by
  unfold stripWs
  have h1 : (l.dropWhile isSpaceChar).Chain' noTwoSpaces :=
    h.suffix (List.dropWhile_suffix _)
  have h2 : ((l.dropWhile isSpaceChar).reverse).Chain' noTwoSpaces := by
    rw [List.chain'_reverse]
    exact h1.imp fun _ _ hab => noTwoSpaces_symm hab
  have h3 : (((l.dropWhile isSpaceChar).reverse).dropWhile isSpaceChar).Chain'
      noTwoSpaces := h2.suffix (List.dropWhile_suffix _)
  rw [List.chain'_reverse]
  exact h3.imp fun _ _ hab => noTwoSpaces_symm hab

theorem head?_dropWhile_false {p : Char → Bool} :
    ∀ {l : List Char} {c : Char}, (l.dropWhile p).head? = some c → p c = false := by
  intro l
  induction l with
  | nil => intro c h; cases h
  | cons d ds ih =>
    intro c h
    by_cases hd : p d = true
    · rw [List.dropWhile_cons, if_pos hd] at h
      exact ih h
    · rw [List.dropWhile_cons, if_neg hd] at h
      rcases Option.some_inj.mp h with rfl
      exact Bool.not_eq_true _ ▸ hd

theorem getLast?_of_suffix {α : Type} {s l : List α} (h : s <:+ l)
    (hne : s ≠ []) : s.getLast? = l.getLast? := by
  obtain ⟨pre, rfl⟩ := h
  rw [List.getLast?_append]
  cases hs : s.getLast? with
  | none => exact absurd (List.getLast?_eq_none_iff.mp hs) hne
  | some a => rfl

theorem stripWs_edges (l : List Char) :
    (∀ c, (stripWs l).head? = some c → isSpaceChar c = false) ∧
    (∀ c, (stripWs l).getLast? = some c → isSpaceChar c = false) := by
  constructor
  · intro c hc
    unfold stripWs at hc
    rw [List.head?_reverse] at hc
    by_cases hnil : (l.dropWhile isSpaceChar).reverse.dropWhile isSpaceChar = []
    · rw [hnil] at hc; cases hc
    · rw [getLast?_of_suffix (List.dropWhile_suffix _) hnil,
        List.getLast?_reverse] at hc
      exact head?_dropWhile_false hc
  · intro c hc
    unfold stripWs at hc
    rw [List.getLast?_reverse] at hc
    exact head?_dropWhile_false hc

/-! Each stage is the identity on a canonical normalized name. -/

theorem dropWhile_eq_self_of_head {p : Char → Bool} {l : List Char}
    (h : ∀ c, l.head? = some c → p c = false) : l.dropWhile p = l := by
  cases l with
  | nil => rfl
  | cons d ds =>
    rw [List.dropWhile_cons, if_neg]
    rw [h d rfl]
    exact Bool.false_ne_true

theorem stripWs_eq_self {l : List Char}
    (hh : ∀ c, l.head? = some c → isSpaceChar c = false)
    (hl : ∀ c, l.getLast? = some c → isSpaceChar c = false) :
    stripWs l = l := by
  unfold stripWs
  rw [dropWhile_eq_self_of_head hh]
  have : l.reverse.dropWhile isSpaceChar = l.reverse := by
    refine dropWhile_eq_self_of_head ?_
    intro c hc
    rw [List.head?_reverse] at hc
    exact hl c hc
  rw [this, List.reverse_reverse]

theorem collapseAux_true_eq_false {l : List Char}
    (h : ∀ c, l.head? = some c → isSpaceChar c = false) :
    collapseAux true l = collapseAux false l := by
  cases l with
  | nil => rfl
  | cons d ds =>
    have hd := h d rfl
    simp [collapseAux, hd]

theorem collapseAux_eq_self :
    ∀ l : List Char, (∀ c ∈ l, isSpaceChar c = true → c = ' ') →
      l.Chain' noTwoSpaces → collapseAux false l = l := by
  intro l
  induction l with
  | nil => intro _ _; rfl
  | cons d ds ih =>
    intro hmem hch
    rcases List.chain'_cons'.mp hch with ⟨hhd, htl⟩
    have htlmem : ∀ c ∈ ds, isSpaceChar c = true → c = ' ' :=
      fun c hc => hmem c (List.mem_cons_of_mem d hc)
    by_cases hd : isSpaceChar d = true
    · have hd' : d = ' ' := hmem d (List.mem_cons_self _ _) hd
      have hheads : ∀ c, ds.head? = some c → isSpaceChar c = false := by
        intro c hc
        have := hhd c hc
        unfold noTwoSpaces at this
        by_cases hcs : isSpaceChar c = true
        · exact absurd ⟨hd, hcs⟩ this
        · exact Bool.not_eq_true _ ▸ hcs
      rw [show collapseAux false (d :: ds) = ' ' :: collapseAux true ds by
        simp [collapseAux, hd]]
      rw [collapseAux_true_eq_false hheads, ih htlmem htl, hd']
    · rw [show collapseAux false (d :: ds) = d :: collapseAux false ds by
        simp [collapseAux, hd]]
      rw [ih htlmem htl]

/-- C6 amended: normalization is idempotent on every input whose
normalized form is left unchanged by another pass of suffix removal (no
fresh suffix token was created by punctuation stripping); the
counterexample "j.r." shows the hypothesis cannot be dropped. -/
theorem normalize_idem_of_suffix_fixed (x : String)
    (h : removeSuffixes (normalize_name x).data = (normalize_name x).data) :
    normalize_name (normalize_name x) = normalize_name x := by
  unfold normalize_name at h ⊢
  apply congrArg String.mk
  generalize hy : normalizeList x.data = y
  rw [hy] at h
  change removeSuffixes y = y at h
  have hchars : ∀ c ∈ y, c.toLower = c ∧ keepChar c = true := by
    rw [← hy]; exact normalizeList_chars x.data
  have hspace : ∀ c ∈ y, isSpaceChar c = true → c = ' ' := by
    rw [← hy]
    intro c hc
    exact collapseAux_spaces _ false (mem_stripWs hc)
  have hchain : y.Chain' noTwoSpaces := by
    rw [← hy]
    exact chain_stripWs (collapseAux_chain _ false)
  have hedges : (∀ c, y.head? = some c → isSpaceChar c = false) ∧
      (∀ c, y.getLast? = some c → isSpaceChar c = false) := by
    rw [← hy]
    exact stripWs_edges _
  show normalizeList y = y
  unfold normalizeList
  rw [List.map_congr_left (fun c hc => (hchars c hc).1), List.map_id']
  rw [stripWs_eq_self hedges.1 hedges.2, h,
    show stripPunct y = y from
      List.filter_eq_self.mpr (fun c hc => (hchars c hc).2)]
  show stripWs (collapseAux false y) = y
  rw [collapseAux_eq_self y hspace hchain]
  exact stripWs_eq_self hedges.1 hedges.2

theorem normalize_idem_of_suffix_fixed_witness :
    removeSuffixes (normalize_name "Smith, Jr.").data =
      (normalize_name "Smith, Jr.").data ∧
    normalize_name (normalize_name "Smith, Jr.") = normalize_name "Smith, Jr." :=
  ⟨by decide, normalize_idem_of_suffix_fixed "Smith, Jr." (by decide)⟩

end NFLDraft
